import Mathlib

/-!
# Verification of the sqlair-prototype front end

A shallow embedding of the sqlair prototype's tokenizer
(`internal/parse/lexer.go`), Pratt parser (`internal/parse/parser.go`),
AST model with its `Walk` traversal (`internal/parse/ast.go`) and the
type-binding validation pass (`statement.go`: `Prepare`,
`typesForStatement`, `interpret`, `validateExpressionType`), together
with theorems settling the specification claims about them.

Strings are modelled as lists of characters (Go iterates runes via
`utf8.DecodeRuneInString`; each list element is one rune).  Loops are
modelled with an explicit fuel argument large enough for the inputs
considered, so that all definitions reduce by `rfl`/`decide`.
-/

namespace Sqlair

/-- Token kinds, from `token.go` (`UNKNOWN`, `EOF`, `IDENT`, `NUM`,
`STRING`, punctuation). -/
inductive TokenType where
  | UNKNOWN
  | EOF
  | IDENT
  | NUM
  | STRING
  | COMMA
  | LPAREN
  | RPAREN
  | LBRACKET
  | RBRACKET
  | BITAND
  | PERIOD
  | ASTERISK
  | DOLLAR
  | EQUAL
  | SEMICOLON
deriving DecidableEq, Repr

open TokenType

/-- `knownRuneTokens`: the single-character punctuation table from
`token.go`. -/
def knownRuneTokens (c : Char) : Option TokenType :=
  if c = '(' then some LPAREN
  else if c = ')' then some RPAREN
  else if c = '[' then some LBRACKET
  else if c = ']' then some RBRACKET
  else if c = ',' then some COMMA
  else if c = '&' then some BITAND
  else if c = '.' then some PERIOD
  else if c = '*' then some ASTERISK
  else if c = '$' then some DOLLAR
  else if c = '=' then some EQUAL
  else if c = ';' then some SEMICOLON
  else none

/-- `Position` from `token.go`: offset, 1-based line, 1-based column. -/
structure Position where
  offset : Nat
  line : Nat
  column : Nat
deriving DecidableEq, Repr

/-- `Token` from `token.go`: a kind, the exact source substring, and a
position. -/
structure Token where
  type : TokenType
  literal : List Char
  pos : Position
deriving DecidableEq, Repr

/-- The rune value `0` used by the lexer as its end-of-input sentinel
(`l.char = 0`). -/
def nulChar : Char := Char.ofNat 0

/-- Go's `unicode.IsSpace` (the Unicode White_Space property). -/
def isSpace (c : Char) : Bool :=
  c = ' ' ∨ c = '\t' ∨ c = '\n' ∨ c = Char.ofNat 0x0B ∨ c = Char.ofNat 0x0C ∨
  c = '\r' ∨ c = Char.ofNat 0x85 ∨ c = Char.ofNat 0xA0 ∨ c = Char.ofNat 0x1680 ∨
  (0x2000 ≤ c.toNat ∧ c.toNat ≤ 0x200A) ∨ c = Char.ofNat 0x2028 ∨
  c = Char.ofNat 0x2029 ∨ c = Char.ofNat 0x202F ∨ c = Char.ofNat 0x205F ∨
  c = Char.ofNat 0x3000

/-- `isDigit` from `lexer.go`: ASCII digits.  (The Go source also
admits non-ASCII runes that satisfy `unicode.IsDigit`; no claim
depends on those, and they are omitted from the model.) -/
def isDigit (c : Char) : Bool :=
  '0' ≤ c ∧ c ≤ '9'

/-- Go's `unicode.IsLetter`, restricted to ASCII letters.  (The Go
source also admits non-ASCII Unicode letters; no claim depends on
those, and they are omitted from the model.) -/
def isLetter (c : Char) : Bool :=
  ('a' ≤ c ∧ c ≤ 'z') ∨ ('A' ≤ c ∧ c ≤ 'Z')

/-- The lexer state from `lexer.go`: the (trimmed) input, the current
character, the offset of the current character, the read offset of the
next character, and line/column tracking. -/
structure Lexer where
  input : List Char
  char : Char
  offset : Nat
  readOffset : Nat
  line : Nat
  column : Nat
deriving DecidableEq, Repr

namespace Lexer

/-- `nextChar` from `lexer.go`: reads the next character and advances
the read offset; at the end of input it sets the sentinel character and
`offset = readOffset`. -/
def nextChar (l : Lexer) : Lexer :=
  if l.input.length ≤ l.readOffset then
    { l with char := nulChar, offset := l.readOffset }
  else
    let c := l.input.getD l.readOffset nulChar
    let line := if c = '\n' then l.line + 1 else l.line
    let column := (if c = '\n' then 0 else l.column) + 1
    { l with char := c, line := line, column := column,
             offset := l.readOffset, readOffset := l.readOffset + 1 }

/-- `peek` from `lexer.go`: the next rune without advancing. -/
def peek (l : Lexer) : Char :=
  if l.input.length ≤ l.readOffset then nulChar
  else l.input.getD l.readOffset nulChar

/-- `position` from `lexer.go`: the position of the current character
(column is stored one ahead). -/
def position (l : Lexer) : Position :=
  { offset := l.offset, line := l.line, column := l.column - 1 }

end Lexer

/-- Go's `strings.TrimSpace` on rune lists. -/
def trimSpace (s : List Char) : List Char :=
  ((s.dropWhile isSpace).reverse.dropWhile isSpace).reverse

/-- A lexer primed on an input that is already trimmed (`NewLexer`
without the `strings.TrimSpace` step). -/
def mkLexer (input : List Char) : Lexer :=
  Lexer.nextChar { input := input, char := nulChar, offset := 0,
                   readOffset := 0, line := 1, column := 1 }

/-- `NewLexer` from `lexer.go`: trims the input and primes the first
character. -/
def NewLexer (input : List Char) : Lexer :=
  mkLexer (trimSpace input)

namespace Lexer

/-- The `for l.skipWhitespace() {}` loop of `NextToken`, with fuel. -/
def skipWS : Nat → Lexer → Lexer
  | 0, l => l
  | n + 1, l => if isSpace l.char then skipWS n l.nextChar else l

/-- The scanning loop of `readIdentifier` from `lexer.go`, with fuel. -/
def readIdentLoop : Nat → Lexer → Lexer
  | 0, l => l
  | n + 1, l =>
    if isLetter l.char ∨ isDigit l.char ∨ l.char = '_' then
      readIdentLoop n l.nextChar
    else l

/-- `input[pos:offset]` slicing. -/
def slice (input : List Char) (a b : Nat) : List Char :=
  (input.drop a).take (b - a)

/-- `readIdentifier` from `lexer.go`: scans to the end of the
identifier and returns the consumed input range. -/
def readIdentifier (fuel : Nat) (l : Lexer) : List Char × Lexer :=
  let l' := readIdentLoop fuel l
  (slice l.input l.offset l'.offset, l')

/-- The scanning loop of `readNumber` from `lexer.go`, with fuel: a
digit run with at most one embedded decimal point; a second point ahead
stops the token. -/
def readNumLoop : Nat → Bool → Lexer → Lexer
  | 0, _, l => l
  | n + 1, oneDecimal, l =>
    if isDigit l.char ∨ l.char = '.' then
      let od := oneDecimal ∨ l.char = '.'
      if od ∧ l.peek = '.' then l.nextChar
      else readNumLoop n od l.nextChar
    else l

/-- `readNumber` from `lexer.go`. -/
def readNumber (fuel : Nat) (l : Lexer) : List Char × Lexer :=
  let l' := readNumLoop fuel false l
  (slice l.input l.offset l'.offset, l')

/-- The scanning loop of `readString` from `lexer.go`, with fuel: each
quote character toggles `maybeCloser`; a closing quote not followed by
another quote ends the string; the sentinel character ends it
best-effort. -/
def readStrLoop : Nat → Char → Bool → Lexer → Lexer
  | 0, _, _, l => l
  | n + 1, r, maybeCloser, l =>
    if l.char = nulChar then l.nextChar
    else if l.char = r then
      let mc := !maybeCloser
      if mc ∧ l.peek ≠ r then l.nextChar
      else readStrLoop n r mc l.nextChar
    else readStrLoop n r maybeCloser l.nextChar

/-- `readString` from `lexer.go`: returns the consumed range, quotes
included. -/
def readString (fuel : Nat) (r : Char) (l : Lexer) : List Char × Lexer :=
  let l' := readStrLoop fuel r true l
  (slice l.input l.offset l'.offset, l')

/-- `readComplexToken` from `lexer.go`: end-of-input, numbers,
identifiers, quoted strings, otherwise a single `UNKNOWN` character. -/
def readComplexToken (fuel : Nat) (pos : Position) (l : Lexer) :
    Token × Lexer :=
  if l.char = nulChar then
    ({ type := EOF, literal := [], pos := pos }, l)
  else if isDigit l.char then
    ({ type := NUM, literal := (readNumber fuel l).1, pos := pos },
     (readNumber fuel l).2)
  else if isLetter l.char ∨ l.char = '_' then
    ({ type := IDENT, literal := (readIdentifier fuel l).1, pos := pos },
     (readIdentifier fuel l).2)
  else if l.char = '\'' then
    ({ type := STRING, literal := (readString fuel l.char l).1, pos := pos },
     (readString fuel l.char l).2)
  else
    ({ type := UNKNOWN, literal := [l.char], pos := pos }, l.nextChar)

/-- `NextToken` from `lexer.go`: skip whitespace, emit a
single-character punctuation token if recognized, otherwise scan a
complex token. -/
def NextToken (l : Lexer) : Token × Lexer :=
  let fuel := l.input.length + 2
  let l1 := skipWS fuel l
  let pos := l1.position
  match knownRuneTokens l1.char with
  | some tt => ({ type := tt, literal := [l1.char], pos := pos }, l1.nextChar)
  | none => readComplexToken fuel pos l1

end Lexer

/-! ## AST model (`ast.go`)

The `Expression` interface and its variants are embedded as one
inductive sum type; the variant set is the `ExpressionType` enumeration
of `ast.go`.  A Go interface value of type `Expression` may be `nil`
(the parser's `parseExpression` returns `nil` when the current token
has no prefix function, and the nil value is appended to child lists),
so child sequences are lists of `Option Expr`, with `none` standing
for Go's `nil`.

`OutputTargetExpression` and `InputSourceExpression` store their
`name` and `field` children as `*IdentityExpression`; since an
`IdentityExpression` wraps exactly one token, they are stored here as
the wrapped tokens. -/

inductive Expr where
  | sql (children : List (Option Expr))
  | dml (children : List (Option Expr))
  | ddl (children : List (Option Expr))
  | groupedColumns (children : List (Option Expr))
  | outputTarget (marker nameTok fieldTok : Token)
  | inputSource (marker nameTok fieldTok : Token)
  | identity (tok : Token)
  | passThrough (children : List (Option Expr))

/-! ## Parser (`parser.go`) -/

/-- The parser's accumulated error messages
(`fmt.Sprintf`-formatted strings in the source), modelled structurally:
each constructor carries the data interpolated into the message. -/
inductive ParseErr where
  /-- "Empty statement" -/
  | emptyStatement
  /-- "Line: %d, column: %d: unexpected '%s', expecting PERIOD" -/
  | expectingPeriod (line column : Nat) (literal : List Char)
  /-- "Line: %d, column: %d: unexpected ')', expecting LITERAL" -/
  | expectingLiteralRParen (line column : Nat)
  /-- "Line: %d, column: %d: unexpected ',', expecting LITERAL" -/
  | expectingLiteralComma (line column : Nat)
  /-- "Line: %d, column: %d: unexpected 'EOF', expecting ')'" -/
  | expectingRParen (line column : Nat)
deriving DecidableEq, Repr

/-- `LOWEST` precedence constant from `parser.go`. -/
def LOWEST : Nat := 0

/-- `HIGHEST` precedence constant from `parser.go`. -/
def HIGHEST : Nat := 1

/-- The Go zero value of `Token` (`TokenType` zero value is `EOF`). -/
def Token.zero : Token :=
  { type := EOF, literal := [], pos := { offset := 0, line := 0, column := 0 } }

/-- The parser state from `parser.go`: the lexer, accumulated errors,
and the two-token lookahead buffer. -/
structure Parser where
  lex : Lexer
  errors : List ParseErr
  currentToken : Token
  peekToken : Token

namespace Parser

/-- `(*Parser).nextToken` from `parser.go`. -/
def nextToken (p : Parser) : Parser :=
  let (t, lex') := p.lex.NextToken
  { p with currentToken := p.peekToken, peekToken := t, lex := lex' }

/-- Appending one message to the parser's error list
(`p.errors = append(p.errors, ...)`). -/
def addErr (p : Parser) (e : ParseErr) : Parser :=
  { p with errors := p.errors ++ [e] }

/-- `(*Parser).precedence` from `parser.go`: `RBRACKET`, `PERIOD` and
`RPAREN` bind at `HIGHEST`; every other kind at `LOWEST`. -/
def precedence (t : Token) : Nat :=
  match t.type with
  | RBRACKET => HIGHEST
  | PERIOD => HIGHEST
  | RPAREN => HIGHEST
  | _ => LOWEST

end Parser

/-- `NewParser` from `parser.go`: feeds `currentToken` and
`peekToken`. -/
def NewParser (l : Lexer) : Parser :=
  Parser.nextToken (Parser.nextToken
    { lex := l, errors := [], currentToken := Token.zero,
      peekToken := Token.zero })

/-- The result of a parsing function: a value together with the
updated parser state, a Go runtime panic (a failed interface type
assertion aborting the process), or fuel exhaustion of the model. -/
inductive POut (α : Type) where
  | ok (val : α) (p : Parser)
  | panicked
  | fuelOut

/-- `(*Parser).parseIdent` from `parser.go`. -/
def parseIdent (p : Parser) : POut (Option Expr) :=
  .ok (some (.identity p.currentToken)) p

/-- `(*Parser).parseString` from `parser.go`. -/
def parseString (p : Parser) : POut (Option Expr) :=
  .ok (some (.identity p.currentToken)) p

/-- `(*Parser).parseInteger` from `parser.go`. -/
def parseInteger (p : Parser) : POut (Option Expr) :=
  .ok (some (.identity p.currentToken)) p

/-- `(*Parser).parseIndex` from `parser.go`: wraps the left expression
and the current token into a `PassThroughExpression`. -/
def parseIndex (left : Option Expr) (p : Parser) : Option Expr × Parser :=
  (some (.passThrough [left, some (.identity p.currentToken)]), p)

/-- Whether a token type has an entry in the parser's `prefixFn` map
(`NewParser` in `parser.go`). -/
def hasPrefixFn : TokenType → Bool
  | ASTERISK | BITAND | DOLLAR | EQUAL | IDENT | NUM
  | SEMICOLON | STRING | LPAREN | RPAREN | COMMA => true
  | _ => false

mutual

/-- `(*Parser).parseExpression` from `parser.go`: run the current
token's prefix function (returning Go `nil` when there is none), then
the infix loop. -/
def parseExpression : Nat → Nat → Parser → POut (Option Expr)
  | 0, _, _ => .fuelOut
  | n + 1, precLevel, p =>
    if hasPrefixFn p.currentToken.type then
      let step : POut (Option Expr) :=
        if p.currentToken.type = BITAND then parseOutputTarget n p
        else if p.currentToken.type = DOLLAR then parseInputSource n p
        else if p.currentToken.type = LPAREN then parseGroup n p
        else if p.currentToken.type = NUM then parseInteger p
        else if p.currentToken.type = STRING then parseString p
        else parseIdent p
      match step with
      | .panicked => .panicked
      | .fuelOut => .fuelOut
      | .ok left p' => infixLoop n precLevel left p'
    else
      .ok none p

/-- The `for prec_level < p.precedence(p.peekToken)` loop of
`parseExpression`; the only token type with an entry in `infixFn` is
`LBRACKET`. -/
def infixLoop : Nat → Nat → Option Expr → Parser → POut (Option Expr)
  | 0, _, _, _ => .fuelOut
  | n + 1, precLevel, left, p =>
    if precLevel < Parser.precedence p.peekToken then
      if p.peekToken.type = LBRACKET then
        let p1 := p.nextToken
        let (left', p2) := parseIndex left p1
        infixLoop n precLevel left' p2
      else
        .ok left p
    else
      .ok left p

/-- `(*Parser).parseOutputTarget` from `parser.go`: `&`, then a name
parsed and type-asserted to `*IdentityExpression` (a Go panic when the
assertion fails, e.g. on a `nil` result), then a mandatory `PERIOD`
(recording an error otherwise), then a field parsed and type-asserted
likewise. -/
def parseOutputTarget : Nat → Parser → POut (Option Expr)
  | 0, _ => .fuelOut
  | n + 1, p =>
    let marker := p.currentToken
    let p1 := p.nextToken
    match parseExpression n (Parser.precedence p1.currentToken) p1 with
    | .panicked => .panicked
    | .fuelOut => .fuelOut
    | .ok e p2 =>
      match e with
      | some (.identity nameTok) =>
        let p3 := p2.nextToken
        if p3.currentToken.type ≠ PERIOD then
          .ok none (p3.addErr (.expectingPeriod p3.currentToken.pos.line
            p3.currentToken.pos.column p3.currentToken.literal))
        else
          let p4 := p3.nextToken
          match parseExpression n (Parser.precedence p4.currentToken) p4 with
          | .panicked => .panicked
          | .fuelOut => .fuelOut
          | .ok f p5 =>
            match f with
            | some (.identity fieldTok) =>
              .ok (some (.outputTarget marker nameTok fieldTok)) p5
            | _ => .panicked
      | _ => .panicked

/-- `(*Parser).parseInputSource` from `parser.go`: `$`, then a name
parsed and type-asserted to `*IdentityExpression`, then two
unconditional `nextToken` calls (the period is skipped without being
checked), then a field parsed and type-asserted likewise. -/
def parseInputSource : Nat → Parser → POut (Option Expr)
  | 0, _ => .fuelOut
  | n + 1, p =>
    let marker := p.currentToken
    let p1 := p.nextToken
    match parseExpression n (Parser.precedence p1.currentToken) p1 with
    | .panicked => .panicked
    | .fuelOut => .fuelOut
    | .ok e p2 =>
      match e with
      | some (.identity nameTok) =>
        let p3 := p2.nextToken
        let p4 := p3.nextToken
        match parseExpression n (Parser.precedence p4.currentToken) p4 with
        | .panicked => .panicked
        | .fuelOut => .fuelOut
        | .ok f p5 =>
          match f with
          | some (.identity fieldTok) =>
            .ok (some (.inputSource marker nameTok fieldTok)) p5
          | _ => .panicked
      | _ => .panicked

/-- `(*Parser).parseGroup` from `parser.go`: skip `(`, reject an empty
group, then the element loop. -/
def parseGroup : Nat → Parser → POut (Option Expr)
  | 0, _ => .fuelOut
  | n + 1, p =>
    let p1 := p.nextToken
    if p1.currentToken.type = RPAREN then
      .ok none (p1.addErr (.expectingLiteralRParen p1.currentToken.pos.line
        p1.currentToken.pos.column))
    else
      groupLoop n [] 1 p1

/-- The element loop of `parseGroup` (`consecutiveCommas` starts
at 1): non-comma tokens are parsed and appended, two consecutive
commas record an error and abort the group, and exhaustion before `)`
records an error and aborts the group. -/
def groupLoop : Nat → List (Option Expr) → Nat → Parser → POut (Option Expr)
  | 0, _, _, _ => .fuelOut
  | n + 1, g, consecutiveCommas, p =>
    if p.currentToken.type ≠ RPAREN ∧ p.currentToken.type ≠ EOF then
      if p.currentToken.type ≠ COMMA then
        match parseExpression n LOWEST p with
        | .panicked => .panicked
        | .fuelOut => .fuelOut
        | .ok e p' => groupLoop n (g ++ [e]) 0 p'.nextToken
      else
        let cc := consecutiveCommas + 1
        if 1 < cc then
          .ok none (p.addErr (.expectingLiteralComma p.currentToken.pos.line
            p.currentToken.pos.column))
        else
          groupLoop n g cc p.nextToken
    else
      if p.currentToken.type = EOF then
        .ok none (p.addErr (.expectingRParen p.currentToken.pos.line
          p.currentToken.pos.column))
      else
        .ok (some (.groupedColumns g)) p

end

/-- The result of `(*Parser).Run`: the root (`nil` when the error list
is non-empty) and the accumulated errors (`nil` when empty), or a Go
runtime panic, or fuel exhaustion of the model. -/
inductive RunResult where
  | ok (root : Option Expr) (err : Option (List ParseErr))
  | panicked
  | fuelOut

/-- The `for p.currentToken.Type != EOF` loop of `Run`: parse one
top-level expression, append it to the root's children, advance. -/
def runLoop : Nat → List (Option Expr) → Parser → POut (List (Option Expr))
  | 0, _, _ => .fuelOut
  | n + 1, children, p =>
    if p.currentToken.type = EOF then
      .ok children p
    else
      match parseExpression n LOWEST p with
      | .panicked => .panicked
      | .fuelOut => .fuelOut
      | .ok e p' => runLoop n (children ++ [e]) p'.nextToken

/-- `(*Parser).Run` from `parser.go`: records an "Empty statement"
error when the parser is immediately at end-of-input, parses top-level
expressions until exhaustion, and returns `(nil, error)` when any
errors accumulated, `(root, nil)` otherwise. -/
def Run (fuel : Nat) (p : Parser) : RunResult :=
  let p1 := if p.currentToken.type = EOF then p.addErr .emptyStatement else p
  match runLoop fuel [] p1 with
  | .panicked => .panicked
  | .fuelOut => .fuelOut
  | .ok children p2 =>
    if p2.errors = [] then .ok (some (.sql children)) none
    else .ok none (some p2.errors)

/-- Lexing and parsing a statement: `parse.NewLexer`, `parse.NewParser`
and `(*Parser).Run` as composed by `Prepare` (`statement.go`). -/
def parserRun (stmt : List Char) : RunResult :=
  Run (4 * stmt.length + 16) (NewParser (NewLexer stmt))

/-! ## `Expressions()` and `Walk` (`ast.go`) -/

/-- The `Expressions()` method of each variant: child lists for the
compound variants, the stored `name` and `field` identities for
`OutputTargetExpression`/`InputSourceExpression`, nothing for
`IdentityExpression`. -/
def exprChildren : Expr → List (Option Expr)
  | .sql cs => cs
  | .dml cs => cs
  | .ddl cs => cs
  | .groupedColumns cs => cs
  | .outputTarget _ n f => [some (.identity n), some (.identity f)]
  | .inputSource _ n f => [some (.identity n), some (.identity f)]
  | .identity _ => []
  | .passThrough cs => cs

mutual

/-- A termination measure for traversals through `exprChildren`
(an `outputTarget`/`inputSource` node must outweigh the two identity
children it fabricates). -/
def Expr.msize : Expr → Nat
  | .identity _ => 1
  | .outputTarget _ _ _ => 9
  | .inputSource _ _ _ => 9
  | .sql cs => 1 + listMsize cs
  | .dml cs => 1 + listMsize cs
  | .ddl cs => 1 + listMsize cs
  | .groupedColumns cs => 1 + listMsize cs
  | .passThrough cs => 1 + listMsize cs

def listMsize : List (Option Expr) → Nat
  | [] => 0
  | none :: t => 1 + listMsize t
  | some e :: t => 1 + Expr.msize e + listMsize t

end

/-- Measure of a possibly-nil expression. -/
def msizeO : Option Expr → Nat
  | none => 0
  | some e => e.msize

theorem listMsize_exprChildren_lt (e : Expr) :
    listMsize (exprChildren e) < e.msize := by
  cases e <;> simp [exprChildren, Expr.msize, listMsize]

theorem msizeO_lt_cons (c : Option Expr) (cs : List (Option Expr)) :
    msizeO c < listMsize (c :: cs) := by
  cases c <;> simp [msizeO, listMsize] ; omega

theorem listMsize_lt_cons (c : Option Expr) (cs : List (Option Expr)) :
    listMsize cs < listMsize (c :: cs) := by
  cases c <;> simp [listMsize]

/-- The outcome of a `Walk`: the final state of the visit closure and
the returned error, or a Go runtime panic (calling `Expressions()` on
a `nil` interface value). -/
inductive WalkOut (σ ε : Type) where
  | ok (s : σ) (res : Option ε)
  | panicked

mutual

/-- `Walk` from `ast.go`: call `visit` on the parent (returning its
error if non-nil), then recursively walk each child, propagating the
first error.  The visit function is modelled with explicit state
threading (Go visitors close over mutable state). -/
def Walk (visit : Option Expr → σ → σ × Option ε) :
    Option Expr → σ → WalkOut σ ε
  | parent, s =>
    match visit parent s with
    | (s', some e) => .ok s' (some e)
    | (s', none) =>
      match parent with
      | none => .panicked
      | some pe => walkChildren visit (exprChildren pe) s'
termination_by p _ => msizeO p
decreasing_by
  simp only [msizeO]
  apply listMsize_exprChildren_lt

/-- The `for _, child := range parent.Expressions()` loop of `Walk`. -/
def walkChildren (visit : Option Expr → σ → σ × Option ε) :
    List (Option Expr) → σ → WalkOut σ ε
  | [], s => .ok s none
  | c :: cs, s =>
    match Walk visit c s with
    | .panicked => .panicked
    | .ok s' (some e) => .ok s' (some e)
    | .ok s' none => walkChildren visit cs s'
termination_by cs _ => listMsize cs
decreasing_by
  · exact msizeO_lt_cons c cs
  · exact listMsize_lt_cons c cs

end

mutual

/-- The depth-first pre-order listing of the nodes of a tree, as
`Walk` visits them. -/
def preorder : Option Expr → List (Option Expr)
  | none => [none]
  | some e => some e :: preorderList (exprChildren e)
termination_by p => msizeO p
decreasing_by
  simp only [msizeO]
  apply listMsize_exprChildren_lt

/-- Pre-order listing of a forest. -/
def preorderList : List (Option Expr) → List (Option Expr)
  | [] => []
  | c :: cs => preorder c ++ preorderList cs
termination_by cs => listMsize cs
decreasing_by
  · exact msizeO_lt_cons c cs
  · exact listMsize_lt_cons c cs

end

mutual

/-- Whether a tree is free of `nil` children (every Go `Expression`
interface value in it is non-nil). -/
def Expr.noNil : Expr → Bool
  | .identity _ => true
  | .outputTarget _ _ _ => true
  | .inputSource _ _ _ => true
  | .sql cs => noNilList cs
  | .dml cs => noNilList cs
  | .ddl cs => noNilList cs
  | .groupedColumns cs => noNilList cs
  | .passThrough cs => noNilList cs

def noNilList : List (Option Expr) → Bool
  | [] => true
  | none :: _ => false
  | some e :: t => e.noNil && noNilList t

end

/-- Non-nilness of a possibly-nil node. -/
def noNilO : Option Expr → Bool
  | none => false
  | some e => e.noNil

/-- Left-to-right early-exit fold of a visit function over a list of
nodes: the reference behaviour that `Walk` is proved to implement on
the pre-order listing. -/
def foldVisit (visit : Option Expr → σ → σ × Option ε) :
    List (Option Expr) → σ → σ × Option ε
  | [], s => (s, none)
  | n :: rest, s =>
    match visit n s with
    | (s', some e) => (s', some e)
    | (s', none) => foldVisit visit rest s'

/-! ## Rendering (`String()` methods of `ast.go`) -/

mutual

/-- The `String()` method of each variant: `SQLExpression` joins its
children with single spaces, `GroupedColumnsExpression` parenthesizes
a comma-joined list, `OutputTargetExpression`/`InputSourceExpression`
rebuild the marker, name, `.`, field sequence, `IdentityExpression`
returns its token literal, the rest concatenate.  Calling `String()`
through a `nil` child dereferences a nil interface (a Go runtime
panic), modelled as `none`. -/
def Expr.render : Expr → Option (List Char)
  | .identity t => some t.literal
  | .outputTarget m n f => some (m.literal ++ n.literal ++ ['.'] ++ f.literal)
  | .inputSource m n f => some (m.literal ++ n.literal ++ ['.'] ++ f.literal)
  | .sql cs => renderJoin [' '] cs
  | .dml cs => renderJoin [] cs
  | .ddl cs => renderJoin [] cs
  | .groupedColumns cs =>
    (renderJoin [',', ' '] cs).map (fun s => '(' :: (s ++ [')']))
  | .passThrough cs => renderJoin [] cs

def renderOpt : Option Expr → Option (List Char)
  | none => none
  | some e => e.render

def renderJoin (sep : List Char) : List (Option Expr) → Option (List Char)
  | [] => some []
  | [c] => renderOpt c
  | c :: cs =>
    (renderOpt c).bind fun r => (renderJoin sep cs).map fun rest => r ++ sep ++ rest

end

/-! ## Binder / validator (`statement.go`, `errors.go`) -/

/-- Reflection information for one caller-supplied value.  Modelled
from the spec: the `internal/reflect` package's `Info` interface (a
descriptor with a type name and a set of field names, produced by the
external descriptor cache) is not part of the sources; only its `Name`
accessor is consumed by `statement.go`. -/
structure Info where
  name : List Char
  fieldNames : List (List Char)
deriving DecidableEq, Repr, Inhabited

/-- `typeMap` from `statement.go`: reflection information indexed by
type name.  The Go map is modelled as an insertion-ordered association
list (`statement.go` only inserts fresh keys, tests membership, and
ranges over it). -/
abbrev typeMap : Type := List (List Char × Info)

/-- Go map indexing `argTypes[name]` on the association-list model. -/
def mapFind : typeMap → List Char → Option Info
  | [], _ => none
  | (k, v) :: rest, nm => if k = nm then some v else mapFind rest nm

/-- The error values of `errors.go`, plus an error propagated
unchanged from the external reflection cache. -/
inductive SqlairErr where
  /-- `ErrTypeNameNotUnique`: duplicate name among supplied values. -/
  | typeNameNotUnique (name : List Char)
  /-- `ErrTypeInfoNotPresent`: an annotation name with no descriptor. -/
  | typeInfoNotPresent (name : List Char)
  /-- `ErrSuperfluousType`: a supplied descriptor used by no annotation. -/
  | superfluousType (name : List Char)
  /-- An error returned by the external `Reflect` call. -/
  | reflectFailure (msg : List Char)
deriving DecidableEq, Repr

/-- `validateExpressionType` from `statement.go`: the type name must
be present in `argTypes`, and is recorded in `seen`. -/
def validateExpressionType (typeName : List Char) (argTypes : typeMap)
    (seen : List (List Char)) : List (List Char) × Option SqlairErr :=
  if (mapFind argTypes typeName).isSome then (seen ++ [typeName], none)
  else (seen, some (.typeInfoNotPresent typeName))

/-- The visit closure of `interpret` from `statement.go`:
`OutputTargetExpression` and `InputSourceExpression` nodes have their
`TypeName().String()` validated; every other node (including a `nil`
one, which matches no case of the type switch) is ignored. -/
def interpretVisit (argTypes : typeMap) (exp : Option Expr)
    (seen : List (List Char)) : List (List Char) × Option SqlairErr :=
  match exp with
  | some (.outputTarget _ n _) => validateExpressionType n.literal argTypes seen
  | some (.inputSource _ n _) => validateExpressionType n.literal argTypes seen
  | _ => (seen, none)

/-- The `for name := range argTypes` loop at the end of `interpret`:
the first supplied name not recorded in `seen` is an
`ErrSuperfluousType`. -/
def superfluousCheck : typeMap → List (List Char) → Option SqlairErr
  | [], _ => none
  | (name, _) :: rest, seen =>
    if name ∈ seen then superfluousCheck rest seen
    else some (.superfluousType name)

/-- The outcome of running a Go function that can panic. -/
inductive GoResult (α : Type) where
  | ok (val : α)
  | panicked

/-- `interpret` from `statement.go`: walk the expression tree
validating every input/output target, then reject unused supplied
types. -/
def interpret (statementExp : Option Expr) (argTypes : typeMap) :
    GoResult (Option SqlairErr) :=
  match Walk (interpretVisit argTypes) statementExp [] with
  | .panicked => .panicked
  | .ok _ (some err) => .ok (some err)
  | .ok seen none => .ok (superfluousCheck argTypes seen)

/-- The loop of `typesForStatement` from `statement.go`: reflect each
argument in order, rejecting immediately on the first duplicate
name. -/
def typesForStatementLoop (reflectF : α → Except (List Char) Info) :
    List α → typeMap → Except SqlairErr typeMap
  | [], acc => .ok acc
  | arg :: rest, acc =>
    match reflectF arg with
    | .error e => .error (.reflectFailure e)
    | .ok reflected =>
      if (mapFind acc reflected.name).isSome then
        .error (.typeNameNotUnique reflected.name)
      else
        typesForStatementLoop reflectF rest (acc ++ [(reflected.name, reflected)])

/-- `typesForStatement` from `statement.go`, abstracted over the
external descriptor cache's `Reflect` (an out-of-core collaborator,
passed as a function). -/
def typesForStatement (reflectF : α → Except (List Char) Info)
    (args : List α) : Except SqlairErr typeMap :=
  typesForStatementLoop reflectF args []

/-- `Statement` from `statement.go`. -/
structure Statement where
  expression : Option Expr
  argTypes : typeMap

/-- A preparation failure: the parser's joined error list, or one of
the binder's error values. -/
inductive PrepareErr where
  | parse (errs : List ParseErr)
  | sqlair (e : SqlairErr)

/-- The outcome of `Prepare`. -/
inductive PrepOut (α : Type) where
  | ok (s : Statement)
  | err (e : PrepareErr)
  | panicked
  | fuelOut

/-- `Prepare` from `statement.go`: parse, build the descriptor table,
validate, and return the statement; every failure is returned, unless
a callee panics. -/
def Prepare (reflectF : α → Except (List Char) Info)
    (stmt : List Char) (args : List α) : PrepOut α :=
  match parserRun stmt with
  | .fuelOut => .fuelOut
  | .panicked => .panicked
  | .ok root errOpt =>
    match errOpt with
    | some errs => .err (.parse errs)
    | none =>
      match typesForStatement reflectF args with
      | .error e => .err (.sqlair e)
      | .ok argTypes =>
        match interpret root argTypes with
        | .panicked => .panicked
        | .ok (some e) => .err (.sqlair e)
        | .ok none => .ok ⟨root, argTypes⟩

/-- The type names referenced by `OutputTarget`/`InputSource`
annotations of a node. -/
def typeNameOf : Option Expr → Option (List Char)
  | some (.outputTarget _ n _) => some n.literal
  | some (.inputSource _ n _) => some n.literal
  | _ => none

/-- All type names referenced by annotations in a tree, in pre-order. -/
def referencedNames (root : Option Expr) : List (List Char) :=
  (preorder root).filterMap typeNameOf

/-! ## Lexer claims (C8, C9) -/

theorem isSpace_nul : isSpace nulChar = false := by decide

theorem knownRuneTokens_nul : knownRuneTokens nulChar = none := by decide

theorem skipWS_id (l : Lexer) (h : isSpace l.char = false) (n : Nat) :
    Lexer.skipWS n l = l := by
  cases n <;> simp [Lexer.skipWS, h]

set_option maxHeartbeats 1000000 in
theorem knownRuneTokens_ne_EOF (c : Char) (tt : TokenType)
    (h : knownRuneTokens c = some tt) : tt ≠ EOF := by
  intro hEq
  subst hEq
  simp only [knownRuneTokens] at h
  split_ifs at h <;> (injection h with h2; exact TokenType.noConfusion h2)

/-- A lexer whose current character is the end-of-input sentinel emits
the EOF token and does not change. -/
theorem nextToken_at_nul (l : Lexer) (h : l.char = nulChar) :
    l.NextToken = (⟨EOF, [], l.position⟩, l) := by
  have hs : Lexer.skipWS (l.input.length + 2) l = l :=
    skipWS_id l (by rw [h, isSpace_nul]) _
  simp only [Lexer.NextToken, hs, h, knownRuneTokens_nul,
    Lexer.readComplexToken]
  simp

/-- C8.  `NextToken` is callable repeatedly; once a call returns the
EOF token, the lexer state returned alongside it is a fixpoint: every
subsequent call returns the identical EOF token and the identical
state (idempotent tail). -/
theorem claim8_nextToken_eof_idempotent (l : Lexer) (t : Token) (l' : Lexer)
    (hrun : l.NextToken = (t, l')) (hEOF : t.type = EOF) :
    l'.NextToken = (t, l') := by
  simp only [Lexer.NextToken] at hrun
  set l1 := Lexer.skipWS (l.input.length + 2) l with hl1
  rcases hkr : knownRuneTokens l1.char with _ | tt
  · rw [hkr] at hrun
    simp only [Lexer.readComplexToken] at hrun
    by_cases hnul : l1.char = nulChar
    · rw [if_pos hnul] at hrun
      simp only [Prod.mk.injEq] at hrun
      obtain ⟨ht, hl⟩ := hrun
      subst hl
      rw [← ht]
      exact nextToken_at_nul l1 hnul
    · rw [if_neg hnul] at hrun
      split_ifs at hrun <;>
        (simp only [Prod.mk.injEq] at hrun
         rw [← hrun.1] at hEOF
         simp at hEOF)
  · rw [hkr] at hrun
    simp only [Prod.mk.injEq] at hrun
    rw [← hrun.1] at hEOF
    simp at hEOF
    exact absurd hEOF (knownRuneTokens_ne_EOF _ _ hkr)

/-- Witness for C8: the lexer on the empty statement returns EOF at
once, and the theorem applies to it. -/
theorem claim8_nextToken_eof_idempotent_witness :
    (NewLexer []).NextToken =
      (⟨EOF, [], { offset := 0, line := 1, column := 0 }⟩, NewLexer []) ∧
    Lexer.NextToken (NewLexer []) =
      (⟨EOF, [], { offset := 0, line := 1, column := 0 }⟩, NewLexer []) :=
  ⟨rfl, claim8_nextToken_eof_idempotent (NewLexer []) _ _ rfl rfl⟩

/-- `readStrLoop` on a state whose current character is neither a
quote nor the sentinel, and whose remaining input `s` contains neither:
it consumes everything and ends exhausted on the sentinel with the
offset at the end of the input. -/
theorem readStrLoop_consume (s : List Char) :
    ∀ (fuel : Nat) (l : Lexer), s.length + 1 ≤ fuel →
      (∀ c ∈ s, ¬c = '\'' ∧ ¬c = nulChar) →
      l.input.drop l.readOffset = s →
      l.readOffset ≤ l.input.length →
      ¬l.char = '\'' → ¬l.char = nulChar →
      ∃ l', Lexer.readStrLoop fuel '\'' false l = l' ∧
        l'.char = nulChar ∧ l'.offset = l.input.length ∧
        l'.input = l.input := by
  induction s with
  | nil =>
    intro fuel l hfuel _ hdrop hro hq hn
    have hlen : l.readOffset = l.input.length := by
      have := List.drop_eq_nil_iff.mp hdrop
      omega
    obtain ⟨f, rfl⟩ : ∃ f, fuel = f + 1 := ⟨fuel - 1, by omega⟩
    rw [Lexer.readStrLoop, if_neg hn, if_neg hq]
    have hl2 : l.nextChar = { l with char := nulChar, offset := l.readOffset } := by
      rw [Lexer.nextChar, if_pos (by omega)]
    cases f with
    | zero =>
      exact ⟨l.nextChar, rfl, by rw [hl2], by rw [hl2]; exact hlen, by rw [hl2]⟩
    | succ g =>
      rw [hl2, Lexer.readStrLoop, if_pos rfl]
      refine ⟨_, rfl, ?_, ?_, ?_⟩ <;> simp [Lexer.nextChar, hlen]
  | cons c s' ih =>
    intro fuel l hfuel hchars hdrop hro hq hn
    have hlt : l.readOffset < l.input.length := by
      have h1 : (l.input.drop l.readOffset).length = s'.length + 1 := by
        rw [hdrop]; simp
      simp at h1
      omega
    have hget : l.input.getD l.readOffset nulChar = c := by
      have h0 : l.input[l.readOffset]? = some c := by
        have := List.getElem?_drop l.input l.readOffset 0
        rw [hdrop] at this
        simpa using this.symm
      simp [List.getD, h0]
    have hdrop' : l.input.drop (l.readOffset + 1) = s' := by
      have := List.drop_drop 1 l.readOffset l.input
      rw [← this, hdrop]
      simp
    obtain ⟨f, rfl⟩ : ∃ f, fuel = f + 1 := ⟨fuel - 1, by omega⟩
    rw [Lexer.readStrLoop, if_neg hn, if_neg hq]
    have hl2 : l.nextChar =
        { l with
          char := c,
          line := (if c = '\n' then l.line + 1 else l.line),
          column := (if c = '\n' then 0 else l.column) + 1,
          offset := l.readOffset, readOffset := l.readOffset + 1 } := by
      rw [Lexer.nextChar, if_neg (by omega), hget]
    obtain ⟨hc1, hc2⟩ := hchars c (List.mem_cons_self c s')
    obtain ⟨l', heq, hch, hoff, hin⟩ :=
      ih f l.nextChar (by simp at hfuel; omega)
        (fun d hd => hchars d (List.mem_cons_of_mem c hd))
        (by rw [hl2]; exact hdrop')
        (by rw [hl2]; simpa using hlt)
        (by rw [hl2]; exact hc1)
        (by rw [hl2]; exact hc2)
    refine ⟨l', heq, hch, ?_, ?_⟩
    · rw [hoff, hl2]
    · rw [hin, hl2]

/-- `NextToken` on a lexer standing on an opening quote scans a string
via `readString`. -/
theorem nextToken_at_quote (l : Lexer) (h : l.char = '\'') :
    l.NextToken =
      ({ type := STRING,
         literal := (Lexer.readString (l.input.length + 2) '\'' l).1,
         pos := l.position },
       (Lexer.readString (l.input.length + 2) '\'' l).2) := by
  have hs := skipWS_id l (by rw [h]; decide) (l.input.length + 2)
  simp only [Lexer.NextToken, hs, h]
  rw [show knownRuneTokens '\'' = none from by decide]
  simp only [Lexer.readComplexToken, h]
  rw [if_neg (by decide : ¬('\'' = nulChar)),
    if_neg (by decide : ¬(isDigit '\'' = true)),
    if_neg (by decide : ¬(isLetter '\'' = true ∨ '\'' = '_'))]
  simp

/-- The first iteration of `readStrLoop` on the opening quote: the
quote toggles `maybeCloser` to `false` and scanning continues. -/
theorem readStrLoop_open (l : Lexer) (h : l.char = '\'') (n : Nat) :
    Lexer.readStrLoop (n + 1) '\'' true l =
      Lexer.readStrLoop n '\'' false l.nextChar := by
  rw [Lexer.readStrLoop, if_neg (by rw [h]; decide), if_pos h]
  simp

/-- C9.  Scanning of single-quoted strings: (a) a doubled quote inside
an open string is an escaped literal quote, not a terminator, so
`'Onos T''oolan'` is scanned as one STRING token (and scanning resumes
correctly after it); (b) for every quote-free, sentinel-free remainder
`s`, the unterminated input `'` followed by `s` is returned as a
best-effort STRING token holding everything collected so far, with the
lexer exhausted — never a tokenizer failure. -/
theorem claim9_quoted_strings :
    ((Lexer.NextToken (NewLexer ['\'', 'O', 'n', 'o', 's', ' ', 'T', '\'',
        '\'', 'o', 'o', 'l', 'a', 'n', '\'', ' ', 'x'])).1 =
      ⟨STRING, ['\'', 'O', 'n', 'o', 's', ' ', 'T', '\'', '\'', 'o', 'o',
        'l', 'a', 'n', '\''], ⟨0, 1, 1⟩⟩ ∧
     ((Lexer.NextToken (NewLexer ['\'', 'O', 'n', 'o', 's', ' ', 'T', '\'',
        '\'', 'o', 'o', 'l', 'a', 'n', '\'', ' ', 'x'])).2.NextToken).1 =
      ⟨IDENT, ['x'], ⟨16, 1, 17⟩⟩) ∧
    (∀ s : List Char, (∀ c ∈ s, ¬c = '\'' ∧ ¬c = nulChar) →
      ∃ l', (mkLexer ('\'' :: s)).NextToken =
          (⟨STRING, '\'' :: s, ⟨0, 1, 1⟩⟩, l') ∧
        l'.char = nulChar ∧ l'.offset = s.length + 1) := by
  refine ⟨⟨rfl, rfl⟩, ?_⟩
  intro s hchars
  have hl0 : mkLexer ('\'' :: s) =
      { input := '\'' :: s, char := '\'', offset := 0, readOffset := 1,
        line := 1, column := 2 } := by
    rw [mkLexer, Lexer.nextChar, if_neg (by simp)]
    simp
  set l0 : Lexer :=
    { input := '\'' :: s, char := '\'', offset := 0, readOffset := 1,
      line := 1, column := 2 } with hl0def
  have hquote : l0.char = '\'' := rfl
  have hnt := nextToken_at_quote l0 hquote
  have hfuel : l0.input.length + 2 = (s.length + 2) + 1 := by
    simp [hl0def]
  rw [hfuel] at hnt
  have hopen := readStrLoop_open l0 hquote (s.length + 2)
  have hread : Lexer.readString ((s.length + 2) + 1) '\'' l0 =
      (Lexer.slice l0.input 0 ((Lexer.readStrLoop (s.length + 2) '\''
          false l0.nextChar).offset),
        Lexer.readStrLoop (s.length + 2) '\'' false l0.nextChar) := by
    rw [Lexer.readString, hopen]
  cases s with
  | nil => exact ⟨_, rfl, rfl, rfl⟩
  | cons c s' =>
    obtain ⟨hc1, hc2⟩ := hchars c (List.mem_cons_self c s')
    have hnc : l0.nextChar =
        { input := '\'' :: c :: s',
          char := c,
          line := (if c = '\n' then 1 + 1 else 1),
          column := (if c = '\n' then 0 else 2) + 1,
          offset := 1, readOffset := 2 } := by
      rw [Lexer.nextChar, if_neg (by simp)]
      simp [hl0def]
    obtain ⟨l', heq, hch, hoff, hin⟩ :=
      readStrLoop_consume s' ((c :: s').length + 2) l0.nextChar
        (by simp)
        (fun d hd => hchars d (List.mem_cons_of_mem c hd))
        (by rw [hnc]; simp)
        (by rw [hnc]; simp)
        (by rw [hnc]; exact hc1)
        (by rw [hnc]; exact hc2)
    have hnclen : l0.nextChar.input.length = s'.length + 2 := by
      rw [hnc]
      simp
    refine ⟨l', ?_, hch, ?_⟩
    · rw [hl0, hnt, hread, heq]
      have hslice : Lexer.slice l0.input 0 l'.offset = '\'' :: c :: s' := by
        rw [Lexer.slice, hoff, hnclen]
        simp [hl0def]
      rw [hslice]
      rfl
    · rw [hoff, hnclen]
      simp


/-- Witness for C9's universal part at the unterminated input `'a`. -/
theorem claim9_quoted_strings_witness :
    (∀ c ∈ (['a'] : List Char), ¬c = '\'' ∧ ¬c = nulChar) ∧
    ∃ l', (mkLexer ('\'' :: ['a'])).NextToken =
        (⟨STRING, '\'' :: ['a'], ⟨0, 1, 1⟩⟩, l') ∧
      l'.char = nulChar ∧ l'.offset = ['a'].length + 1 :=
  ⟨by decide, claim9_quoted_strings.2 ['a'] (by decide)⟩

/-! ## Theorems for the claims about the parser's concrete behaviour -/

/-- C3.  The claim states that all failures of statement preparation
are returned as error values and that `Prepare` and the parser's `Run`
never abort the process, including on a `&` or `$` marker followed by
end-of-input.  The code contradicts this (and `Run`'s own doc comment,
which promises "an error for a malformed statement"): on the statements
`&` and `$` the unchecked interface type assertion
`p.parseExpression(...).(*IdentityExpression)` in `parseOutputTarget` /
`parseInputSource` is applied to a `nil` `Expression` and panics,
aborting the process, both under `Run` directly and under `Prepare`. -/
theorem claim3_prepare_panics_on_dangling_marker :
    parserRun ['&'] = .panicked ∧ parserRun ['$'] = .panicked ∧
      Prepare (fun i : Info => Except.ok i) ['&'] [] = .panicked ∧
      Prepare (fun i : Info => Except.ok i) ['$'] [] = .panicked :=
  ⟨rfl, rfl, rfl, rfl⟩

/-- C4 counterexample.  On the empty statement, `Run` records the
"Empty statement" error but returns a `nil` root together with the
error (`return nil, err`), not an empty non-null root as claimed. -/
theorem claim4_counterexample :
    parserRun [] = .ok none (some [ParseErr.emptyStatement]) := rfl

/-- C4 (amended).  For the empty input statement, `Run` records an
"Empty statement" error and returns that error together with a `nil`
root — the root is not inspectable by callers. -/
theorem claim4_empty_statement :
    ∃ errs, parserRun [] = .ok none (some errs) ∧
      ParseErr.emptyStatement ∈ errs :=
  ⟨[ParseErr.emptyStatement], rfl, by decide⟩

/-- C5 counterexample.  The claim states that in both annotation
productions an error is recorded when the token after the Identity
name is not `.`.  In the InputSource production no such check exists:
on `$A*b` the parser succeeds with an empty error list, silently
swallowing the `*` that sits where the period should be. -/
theorem claim5_counterexample :
    ∃ m n f, parserRun ['$', 'A', '*', 'b'] =
      .ok (some (.sql [some (.inputSource m n f)])) none :=
  ⟨_, _, _, rfl⟩

/-- C5 (amended).  Only the OutputTarget production checks the token
after the Identity name: for a non-period separator, `&A<c>b` records
the expecting-PERIOD error (and the root is withheld), while `$A<c>b`
skips the separator unchecked and succeeds with no recorded error. -/
theorem claim5_output_checks_period_input_does_not :
    ∀ c, c ∈ (['*', '=', ';', ','] : List Char) →
      (parserRun ['&', 'A', c, 'b'] =
        .ok none (some [ParseErr.expectingPeriod 1 3 [c]]) ∧
       ∃ m n f, parserRun ['$', 'A', c, 'b'] =
        .ok (some (.sql [some (.inputSource m n f)])) none) := by
  intro c hc
  fin_cases hc
  · exact ⟨rfl, _, _, _, rfl⟩
  · exact ⟨rfl, _, _, _, rfl⟩
  · exact ⟨rfl, _, _, _, rfl⟩
  · exact ⟨rfl, _, _, _, rfl⟩

/-- Witness for C5 (amended) at the separator `*`. -/
theorem claim5_output_checks_period_input_does_not_witness :
    '*' ∈ (['*', '=', ';', ','] : List Char) ∧
      (parserRun ['&', 'A', '*', 'b'] =
        .ok none (some [ParseErr.expectingPeriod 1 3 ['*']]) ∧
       ∃ m n f, parserRun ['$', 'A', '*', 'b'] =
        .ok (some (.sql [some (.inputSource m n f)])) none) :=
  ⟨by decide, claim5_output_checks_period_input_does_not '*' (by decide)⟩

/-- C6 counterexample.  The claim states that every top-level token
not starting a dedicated production becomes an opaque pass-through
Identity leaf preserving its literal.  The token `.` has no prefix
function: `parseExpression` returns Go `nil`, which is appended as a
`nil` child of the root — no Identity leaf is built and the literal is
dropped from the tree. -/
theorem claim6_counterexample :
    parserRun ['.'] = .ok (some (.sql [none])) none := rfl

/-- C6 (amended).  Top-level tokens whose kinds have a prefix function
(identifiers, string literals, integer literals, and the punctuation
`*`, `=`, `;`, `,`, `)`) become Identity leaves preserving their
literal; top-level tokens with no prefix function (`.`, `[`, `]`, and
unknown characters) instead contribute a `nil` child, and their
literal is not preserved. -/
theorem claim6_prefix_tokens_identity_others_nil :
    (∀ c, c ∈ (['*', '=', ';', ',', ')'] : List Char) →
      ∃ tok, parserRun [c] = .ok (some (.sql [some (.identity tok)])) none ∧
        Token.literal tok = [c]) ∧
    (∃ t1, parserRun ['a', 'b'] =
      .ok (some (.sql [some (.identity t1)])) none ∧
      Token.literal t1 = ['a', 'b']) ∧
    (∃ t2, parserRun ['1', '2'] =
      .ok (some (.sql [some (.identity t2)])) none ∧
      Token.literal t2 = ['1', '2']) ∧
    (∃ t3, parserRun ['\'', 's', '\''] =
      .ok (some (.sql [some (.identity t3)])) none ∧
      Token.literal t3 = ['\'', 's', '\'']) ∧
    (∀ c, c ∈ (['.', '[', ']', '#'] : List Char) →
      parserRun [c] = .ok (some (.sql [none])) none) := by
  refine ⟨?_, ⟨_, rfl, rfl⟩, ⟨_, rfl, rfl⟩, ⟨_, rfl, rfl⟩, ?_⟩
  · intro c hc
    fin_cases hc
    · exact ⟨_, rfl, rfl⟩
    · exact ⟨_, rfl, rfl⟩
    · exact ⟨_, rfl, rfl⟩
    · exact ⟨_, rfl, rfl⟩
    · exact ⟨_, rfl, rfl⟩
  · intro c hc
    fin_cases hc
    · rfl
    · rfl
    · rfl
    · rfl

/-- Witness for C6 (amended): the handled token `*` and the unhandled
token `.` at their concrete inputs. -/
theorem claim6_prefix_tokens_identity_others_nil_witness :
    ('*' ∈ (['*', '=', ';', ',', ')'] : List Char) ∧
      ∃ tok, parserRun ['*'] = .ok (some (.sql [some (.identity tok)])) none ∧
        Token.literal tok = ['*']) ∧
    ('.' ∈ (['.', '[', ']', '#'] : List Char) ∧
      parserRun ['.'] = .ok (some (.sql [none])) none) :=
  ⟨⟨by decide, claim6_prefix_tokens_identity_others_nil.1 '*' (by decide)⟩,
   ⟨by decide, claim6_prefix_tokens_identity_others_nil.2.2.2.2 '.' (by decide)⟩⟩

/-- C10.  The statement `a.b` is accepted by the parser with an empty
error list (`.` has neither a prefix function nor an infix function
registered), yet the returned root's children contain a Go `nil`
expression; rendering the root (`String()`) dereferences that `nil`
child — a runtime panic, modelled as `none` — so rendering is not
total over parser-accepted roots. -/
theorem claim10_accepted_root_with_nil_child :
    ∃ ta tb r, parserRun ['a', '.', 'b'] = .ok (some r) none ∧
      r = .sql [some (.identity ta), none, some (.identity tb)] ∧
      Expr.render r = none := by
  refine ⟨_, _, _, rfl, rfl, ?_⟩
  simp [Expr.render, renderJoin, renderOpt]

/-! ## The `Walk` traversal (C7) -/

theorem msize_pos (e : Expr) : 1 ≤ e.msize := by
  cases e <;> simp [Expr.msize]

theorem noNilList_cons (c : Option Expr) (cs : List (Option Expr))
    (h : noNilList (c :: cs) = true) :
    noNilO c = true ∧ noNilList cs = true := by
  cases c with
  | none => simp [noNilList] at h
  | some e =>
    simp only [noNilList, Bool.and_eq_true] at h
    exact ⟨h.1, h.2⟩

theorem noNil_children (e : Expr) (h : e.noNil = true) :
    noNilList (exprChildren e) = true := by
  cases e <;>
    simp_all [Expr.noNil, exprChildren, noNilList]

theorem foldVisit_append {σ ε : Type}
    (visit : Option Expr → σ → σ × Option ε)
    (xs ys : List (Option Expr)) :
    ∀ s, foldVisit visit (xs ++ ys) s =
      (match foldVisit visit xs s with
       | (s', some e) => (s', some e)
       | (s', none) => foldVisit visit ys s') := by
  induction xs with
  | nil => intro s; simp [foldVisit]
  | cons x xs ih =>
    intro s
    simp only [List.cons_append, foldVisit]
    rcases hv : visit x s with ⟨s', r⟩
    cases r <;> simp [ih]

/-- `Walk` equals the left-to-right early-exit fold of its visit
function over the depth-first pre-order listing of the tree, on every
tree without `nil` children. -/
theorem walk_eq_foldVisit {σ ε : Type}
    (visit : Option Expr → σ → σ × Option ε) :
    ∀ (k : Nat) (p : Option Expr), msizeO p ≤ k → noNilO p = true → ∀ s,
      Walk visit p s =
        WalkOut.ok (foldVisit visit (preorder p) s).1
          (foldVisit visit (preorder p) s).2 := by
  intro k
  induction k with
  | zero =>
    intro p hk hnn _
    cases p with
    | none => simp [noNilO] at hnn
    | some e =>
      have := msize_pos e
      simp [msizeO] at hk
      omega
  | succ k ih =>
    have ihL : ∀ cs, listMsize cs ≤ k → noNilList cs = true → ∀ s0,
        walkChildren visit cs s0 =
          WalkOut.ok (foldVisit visit (preorderList cs) s0).1
            (foldVisit visit (preorderList cs) s0).2 := by
      intro cs
      induction cs with
      | nil =>
        intro _ _ s0
        simp [walkChildren, preorderList, foldVisit]
      | cons c cs ihc =>
        intro hsz hnn s0
        obtain ⟨hc, hcs⟩ := noNilList_cons c cs hnn
        have hlt1 := msizeO_lt_cons c cs
        have hlt2 := listMsize_lt_cons c cs
        rw [walkChildren, ih c (by omega) hc s0, preorderList,
          foldVisit_append]
        rcases hr : foldVisit visit (preorder c) s0 with ⟨s1, r⟩
        cases r with
        | none => simp [ihc (by omega) hcs s1]
        | some err => simp
    intro p hk hnn s
    cases p with
    | none => simp [noNilO] at hnn
    | some e =>
      rw [Walk, preorder]
      rcases hv : visit (some e) s with ⟨s', r⟩
      cases r with
      | some err => simp [foldVisit, hv]
      | none =>
        have h1 : listMsize (exprChildren e) ≤ k := by
          have := listMsize_exprChildren_lt e
          simp [msizeO] at hk
          omega
        have h2 := noNil_children e (by simpa [noNilO] using hnn)
        simp [foldVisit, hv, ihL (exprChildren e) h1 h2 s']

theorem foldVisit_log_none {ε : Type} (f : Option Expr → Option ε) :
    ∀ (ns : List (Option Expr)), (∀ n ∈ ns, f n = none) →
      ∀ acc, foldVisit (fun n st => (st ++ [n], f n)) ns acc =
        (acc ++ ns, none) := by
  intro ns
  induction ns with
  | nil => intro _ acc; simp [foldVisit]
  | cons n ns ih =>
    intro h acc
    have hn := h n (List.mem_cons_self n ns)
    simp only [foldVisit, hn]
    rw [ih (fun m hm => h m (List.mem_cons_of_mem n hm))]
    simp

theorem foldVisit_log_err {ε : Type} (f : Option Expr → Option ε) :
    ∀ (pre : List (Option Expr)) (n : Option Expr)
      (post : List (Option Expr)) (err : ε),
      (∀ m ∈ pre, f m = none) → f n = some err →
      ∀ acc, foldVisit (fun n st => (st ++ [n], f n)) (pre ++ n :: post) acc =
        (acc ++ pre ++ [n], some err) := by
  intro pre
  induction pre with
  | nil =>
    intro n post err _ hn acc
    simp [foldVisit, hn]
  | cons m pre ih =>
    intro n post err hpre hn acc
    have hm := hpre m (List.mem_cons_self m pre)
    simp only [List.cons_append, foldVisit, hm]
    simpa using
      ih n post err (fun m' hm' => hpre m' (List.mem_cons_of_mem m hm')) hn
        (acc ++ [m])

/-- C7.  On every tree free of `nil` children and for every visit
function, `Walk` is depth-first pre-order: it equals the left-to-right
early-exit fold of the visit function over the pre-order listing (a
node precedes its children there); in particular a visitor that never
signals is called on every node exactly once, in pre-order, with `nil`
returned, and a visitor that first signals an error at some node of the
pre-order is called only on the nodes up to and including that node,
with exactly that error returned immediately. -/
theorem claim7_walk_depth_first_preorder {σ ε : Type} :
    (∀ (visit : Option Expr → σ → σ × Option ε) (p : Option Expr),
      noNilO p = true → ∀ s,
      Walk visit p s =
        WalkOut.ok (foldVisit visit (preorder p) s).1
          (foldVisit visit (preorder p) s).2) ∧
    (∀ (f : Option Expr → Option ε) (p : Option Expr), noNilO p = true →
      ((∀ n ∈ preorder p, f n = none) →
        Walk (fun n st => (st ++ [n], f n)) p [] =
          WalkOut.ok (preorder p) none) ∧
      (∀ pre n post err, preorder p = pre ++ n :: post →
        (∀ m ∈ pre, f m = none) → f n = some err →
        Walk (fun n st => (st ++ [n], f n)) p [] =
          WalkOut.ok (pre ++ [n]) (some err))) := by
  constructor
  · intro visit p hp s
    exact walk_eq_foldVisit visit (msizeO p) p le_rfl hp s
  · intro f p hp
    constructor
    · intro hnone
      rw [walk_eq_foldVisit _ (msizeO p) p le_rfl hp []]
      rw [foldVisit_log_none f (preorder p) hnone []]
      simp
    · intro pre n post err hsplit hpre hn
      rw [walk_eq_foldVisit _ (msizeO p) p le_rfl hp [], hsplit]
      rw [foldVisit_log_err f pre n post err hpre hn []]
      simp

/-- Witness for C7 at a concrete two-leaf tree and the never-stopping
visitor. -/
theorem claim7_walk_depth_first_preorder_witness :
    (noNilO (some (.sql [some (.identity Token.zero)])) = true) ∧
    Walk (fun (n : Option Expr) (st : List (Option Expr)) =>
        (st ++ [n], (none : Option Nat)))
      (some (.sql [some (.identity Token.zero)])) [] =
      WalkOut.ok (preorder (some (.sql [some (.identity Token.zero)]))) none :=
  ⟨by simp [noNilO, Expr.noNil, noNilList],
   (((@claim7_walk_depth_first_preorder (List (Option Expr)) Nat).2
      (fun _ => none) (some (.sql [some (.identity Token.zero)]))
      (by simp [noNilO, Expr.noNil, noNilList])).1 (fun _ _ => rfl))⟩

/-! ## The binder's coverage property (C1) -/

/-- The `seen`-update performed by the `interpret` visitor at a node:
the type name of an `OutputTarget`/`InputSource` annotation whose
lookup succeeds, nothing otherwise. -/
def ivG (D : typeMap) (n : Option Expr) : List (List Char) :=
  match typeNameOf n with
  | some nm => if (mapFind D nm).isSome then [nm] else []
  | none => []

/-- The error produced by the `interpret` visitor at a node: a
no-descriptor error exactly for an annotation whose type name has no
entry. -/
def ivF (D : typeMap) (n : Option Expr) : Option SqlairErr :=
  match typeNameOf n with
  | some nm =>
    if (mapFind D nm).isSome then none else some (.typeInfoNotPresent nm)
  | none => none

theorem interpretVisit_localized (D : typeMap) :
    interpretVisit D = fun n seen => (seen ++ ivG D n, ivF D n) := by
  funext n seen
  rcases n with _ | e
  · simp [interpretVisit, ivG, ivF, typeNameOf]
  · cases e <;>
      first
        | (simp [interpretVisit, ivG, ivF, typeNameOf]; done)
        | (simp only [interpretVisit, validateExpressionType, ivG, ivF,
             typeNameOf]
           split_ifs <;> simp)

theorem mapFind_isSome_iff (t : typeMap) (nm : List Char) :
    (mapFind t nm).isSome = true ↔ nm ∈ t.map Prod.fst := by
  induction t with
  | nil => simp [mapFind]
  | cons kv rest ih =>
    rcases kv with ⟨k, v⟩
    by_cases h : k = nm
    · subst h
      simp [mapFind]
    · simp [mapFind, h, ih, Ne.symm h]

theorem foldVisit_iv_cons_none (D : typeMap) (n : Option Expr)
    (rest : List (Option Expr)) (acc : List (List Char))
    (h : ivF D n = none) :
    foldVisit (fun n st => (st ++ ivG D n, ivF D n)) (n :: rest) acc =
      foldVisit (fun n st => (st ++ ivG D n, ivF D n)) rest (acc ++ ivG D n)
    := by
  simp only [foldVisit, h]

theorem foldVisit_iv_cons_err (D : typeMap) (n : Option Expr)
    (rest : List (Option Expr)) (acc : List (List Char)) (err : SqlairErr)
    (h : ivF D n = some err) :
    foldVisit (fun n st => (st ++ ivG D n, ivF D n)) (n :: rest) acc =
      (acc ++ ivG D n, some err) := by
  simp only [foldVisit, h]

/-- The fold of the `interpret` visitor over a node list: either every
referenced name resolves, `seen` collects exactly the referenced names
in order, and no error is produced — or some referenced name has no
entry and the fold stops with a no-descriptor error for such a name. -/
theorem foldVisit_interpret_spec (D : typeMap) :
    ∀ (ns : List (Option Expr)) (acc : List (List Char)),
      ((∀ nm ∈ ns.filterMap typeNameOf, (mapFind D nm).isSome = true) ∧
        foldVisit (fun n st => (st ++ ivG D n, ivF D n)) ns acc =
          (acc ++ ns.filterMap typeNameOf, none)) ∨
      (∃ nm, nm ∈ ns.filterMap typeNameOf ∧ mapFind D nm = none ∧
        ∃ st, foldVisit (fun n st => (st ++ ivG D n, ivF D n)) ns acc =
          (st, some (.typeInfoNotPresent nm))) := by
  intro ns
  induction ns with
  | nil =>
    intro acc
    left
    simp [foldVisit]
  | cons n rest ih =>
    intro acc
    rcases hty : typeNameOf n with _ | nm
    · have hF : ivF D n = none := by simp [ivF, hty]
      have hG : ivG D n = [] := by simp [ivG, hty]
      rw [foldVisit_iv_cons_none D n rest acc hF, hG, List.append_nil]
      rcases ih acc with ⟨hall, heq⟩ | ⟨m, hmem, hnone, st, heq⟩
      · left
        exact ⟨by simpa [List.filterMap_cons, hty] using hall,
          by simpa [List.filterMap_cons, hty] using heq⟩
      · right
        exact ⟨m, by simp [List.filterMap_cons, hty, hmem], hnone, st, heq⟩
    · by_cases hfind : (mapFind D nm).isSome = true
      · have hF : ivF D n = none := by simp [ivF, hty, hfind]
        have hG : ivG D n = [nm] := by simp [ivG, hty, hfind]
        rw [foldVisit_iv_cons_none D n rest acc hF, hG]
        rcases ih (acc ++ [nm]) with ⟨hall, heq⟩ | ⟨m, hmem, hnone, st, heq⟩
        · left
          constructor
          · intro m hm
            rcases (by simpa [List.filterMap_cons, hty] using hm : m = nm ∨
                m ∈ rest.filterMap typeNameOf) with rfl | hm'
            · exact hfind
            · exact hall m hm'
          · rw [heq]
            simp [List.filterMap_cons, hty]
        · right
          exact ⟨m, by simp [List.filterMap_cons, hty, hmem], hnone, st, heq⟩
      · have hnone : mapFind D nm = none :=
          Option.not_isSome_iff_eq_none.mp (by simpa using hfind)
        have hF : ivF D n = some (.typeInfoNotPresent nm) := by
          simp [ivF, hty, hnone]
        right
        exact ⟨nm, by simp [List.filterMap_cons, hty], hnone, acc ++ ivG D n,
          foldVisit_iv_cons_err D n rest acc _ hF⟩

theorem superfluousCheck_none_iff (D : typeMap) (seen : List (List Char)) :
    superfluousCheck D seen = none ↔ ∀ d ∈ D.map Prod.fst, d ∈ seen := by
  induction D with
  | nil => simp [superfluousCheck]
  | cons kv rest ih =>
    rcases kv with ⟨k, v⟩
    by_cases h : k ∈ seen <;> simp [superfluousCheck, h, ih]

theorem superfluousCheck_some (D : typeMap) (seen : List (List Char))
    (e : SqlairErr) (h : superfluousCheck D seen = some e) :
    ∃ nm, e = .superfluousType nm ∧ nm ∈ D.map Prod.fst ∧ nm ∉ seen := by
  induction D with
  | nil => simp [superfluousCheck] at h
  | cons kv rest ih =>
    rcases kv with ⟨k, v⟩
    by_cases hk : k ∈ seen
    · simp only [superfluousCheck, if_pos hk] at h
      obtain ⟨nm, he, hmem, hns⟩ := ih h
      exact ⟨nm, he, by simp [hmem], hns⟩
    · simp only [superfluousCheck, if_neg hk, Option.some.injEq] at h
      exact ⟨k, h.symm, by simp, hk⟩

/-- `interpret` on a `nil`-free tree, rewritten as the visitor fold
over the pre-order listing followed by the superfluous-type sweep. -/
theorem interpret_eq_fold (root : Option Expr) (D : typeMap)
    (hroot : noNilO root = true) :
    interpret root D =
      (match foldVisit (fun n st => (st ++ ivG D n, ivF D n))
          (preorder root) [] with
       | (_, some err) => .ok (some err)
       | (seen, none) => .ok (superfluousCheck D seen)) := by
  rw [interpret,
    walk_eq_foldVisit (interpretVisit D) (msizeO root) root le_rfl hroot [],
    interpretVisit_localized D]
  rcases hf : foldVisit (fun n st => (st ++ ivG D n, ivF D n))
      (preorder root) [] with ⟨seen, r⟩
  cases r <;> simp

/-- C1.  The binder's coverage property, on every `nil`-free tree: the
validation pass succeeds exactly when the set of type names referenced
by `OutputTarget`/`InputSource` annotations equals the set of names in
the descriptor table; a referenced name with no entry fails with a
no-descriptor error (`ErrTypeInfoNotPresent`) naming such a reference,
and when every referenced name resolves, an unreferenced supplied name
fails with an unused-type error (`ErrSuperfluousType`) naming such a
supplied type. -/
theorem claim1_interpret_coverage (root : Option Expr) (D : typeMap)
    (hroot : noNilO root = true) :
    (interpret root D = .ok none ↔
      (∀ nm, nm ∈ referencedNames root ↔ nm ∈ D.map Prod.fst)) ∧
    ((∃ nm ∈ referencedNames root, nm ∉ D.map Prod.fst) →
      ∃ nm, interpret root D = .ok (some (.typeInfoNotPresent nm)) ∧
        nm ∈ referencedNames root ∧ nm ∉ D.map Prod.fst) ∧
    ((∀ nm ∈ referencedNames root, nm ∈ D.map Prod.fst) →
      (∃ d ∈ D.map Prod.fst, d ∉ referencedNames root) →
      ∃ d, interpret root D = .ok (some (.superfluousType d)) ∧
        d ∈ D.map Prod.fst ∧ d ∉ referencedNames root) := by
  have hrw := interpret_eq_fold root D hroot
  refine ⟨?_, ?_, ?_⟩
  · constructor
    · intro hok nm
      rcases foldVisit_interpret_spec D (preorder root) [] with
        ⟨hall, heq⟩ | ⟨m, hmem, hnone, st, heq⟩
      · rw [heq] at hrw
        simp only [List.nil_append] at hrw
        constructor
        · intro hnm
          exact (mapFind_isSome_iff D nm).mp
            (hall nm (by simpa [referencedNames] using hnm))
        · intro hnm
          rw [hrw] at hok
          have hsup : superfluousCheck D
              ((preorder root).filterMap typeNameOf) = none := by
            simpa using hok
          simpa [referencedNames] using
            (superfluousCheck_none_iff D _).mp hsup nm hnm
      · rw [heq] at hrw
        rw [hrw] at hok
        simp at hok
    · intro hiff
      rcases foldVisit_interpret_spec D (preorder root) [] with
        ⟨hall, heq⟩ | ⟨m, hmem, hnone, st, heq⟩
      · rw [heq] at hrw
        simp only [List.nil_append] at hrw
        rw [hrw]
        have hsup : superfluousCheck D
            ((preorder root).filterMap typeNameOf) = none := by
          rw [superfluousCheck_none_iff]
          intro d hd
          simpa [referencedNames] using (hiff d).mpr hd
        rw [hsup]
      · have hmD : m ∈ D.map Prod.fst :=
          (hiff m).mp (by simpa [referencedNames] using hmem)
        have hsome := (mapFind_isSome_iff D m).mpr hmD
        rw [hnone] at hsome
        simp at hsome
  · intro ⟨nm0, hmem0, hnot0⟩
    rcases foldVisit_interpret_spec D (preorder root) [] with
      ⟨hall, heq⟩ | ⟨m, hmem, hnone, st, heq⟩
    · have := (mapFind_isSome_iff D nm0).mp
        (hall nm0 (by simpa [referencedNames] using hmem0))
      exact absurd this hnot0
    · rw [heq] at hrw
      refine ⟨m, hrw, by simpa [referencedNames] using hmem, ?_⟩
      intro hin
      have hsome := (mapFind_isSome_iff D m).mpr hin
      rw [hnone] at hsome
      simp at hsome
  · intro hall0 ⟨d0, hd0, hd0n⟩
    rcases foldVisit_interpret_spec D (preorder root) [] with
      ⟨hall, heq⟩ | ⟨m, hmem, hnone, st, heq⟩
    · rw [heq] at hrw
      simp only [List.nil_append] at hrw
      cases hsup : superfluousCheck D
          ((preorder root).filterMap typeNameOf) with
      | none =>
        exact absurd ((superfluousCheck_none_iff D _).mp hsup d0 hd0)
          (by simpa [referencedNames] using hd0n)
      | some e =>
        obtain ⟨nm, he, hmemD, hns⟩ := superfluousCheck_some D _ e hsup
        subst he
        exact ⟨nm, by rw [hrw, hsup], hmemD,
          by simpa [referencedNames] using hns⟩
    · have hsome := (mapFind_isSome_iff D m).mpr
        (hall0 m (by simpa [referencedNames] using hmem))
      rw [hnone] at hsome
      simp at hsome

/-- Witness for C1 at a one-annotation statement with a matching
one-entry table: validation succeeds. -/
theorem claim1_interpret_coverage_witness :
    (noNilO (some (.sql [some (.outputTarget Token.zero
        ⟨IDENT, ['P'], ⟨0, 0, 0⟩⟩ ⟨ASTERISK, ['*'], ⟨0, 0, 0⟩⟩)])) = true) ∧
    interpret (some (.sql [some (.outputTarget Token.zero
        ⟨IDENT, ['P'], ⟨0, 0, 0⟩⟩ ⟨ASTERISK, ['*'], ⟨0, 0, 0⟩⟩)]))
      [(['P'], ⟨['P'], []⟩)] = .ok none := by
  refine ⟨by simp [noNilO, Expr.noNil, noNilList], ?_⟩
  rw [(claim1_interpret_coverage _ [(['P'], ⟨['P'], []⟩)]
    (by simp [noNilO, Expr.noNil, noNilList])).1]
  intro nm
  simp [referencedNames, preorder, preorderList, exprChildren, typeNameOf]

/-! ## Descriptor-table construction (C2) -/

/-- The descriptor name an argument reflects to, when reflection
succeeds. -/
def reflName (reflectF : α → Except (List Char) Info) (a : α) :
    Option (List Char) :=
  match reflectF a with
  | .ok i => some i.name
  | .error _ => none

/-- The table entry an argument contributes, when reflection
succeeds. -/
def entryOf (reflectF : α → Except (List Char) Info) (a : α) :
    Option (List Char × Info) :=
  match reflectF a with
  | .ok i => some (i.name, i)
  | .error _ => none

theorem keys_entries {α : Type} (reflectF : α → Except (List Char) Info)
    (args : List α) :
    (args.filterMap (entryOf reflectF)).map Prod.fst =
      args.filterMap (reflName reflectF) := by
  induction args with
  | nil => simp
  | cons a rest ih =>
    cases hr : reflectF a <;>
      simp [List.filterMap_cons, entryOf, reflName, hr, ih]

theorem mapFind_of_mem_nodup (t : typeMap)
    (hn : (t.map Prod.fst).Nodup) (k : List Char) (v : Info)
    (hm : (k, v) ∈ t) : mapFind t k = some v := by
  induction t with
  | nil => simp at hm
  | cons kv rest ih =>
    rcases kv with ⟨k', v'⟩
    simp only [List.map_cons, List.nodup_cons] at hn
    rcases List.mem_cons.mp hm with he | ht
    · obtain ⟨rfl, rfl⟩ := Prod.mk.injEq .. ▸ he
      simp [mapFind]
    · have hne : k' ≠ k := by
        intro hkk
        subst hkk
        exact hn.1 (List.mem_map.mpr ⟨(k', v), ht, rfl⟩)
      simp only [mapFind, if_neg hne]
      exact ih hn.2 ht

/-- The loop of `typesForStatement`: given that every argument
reflects, it either returns the accumulated table extended with one
entry per argument (when all names are fresh), or stops at the first
argument whose name already occurs, with that name's uniqueness
error. -/
theorem tfsLoop_spec {α : Type} (reflectF : α → Except (List Char) Info) :
    ∀ (args : List α) (acc : typeMap),
      (∀ a ∈ args, ∃ i, reflectF a = .ok i) →
      (acc.map Prod.fst).Nodup →
      ((typesForStatementLoop reflectF args acc =
          .ok (acc ++ args.filterMap (entryOf reflectF)) ∧
        ((acc.map Prod.fst) ++ args.filterMap (reflName reflectF)).Nodup) ∨
       (∃ nm pre post,
        typesForStatementLoop reflectF args acc =
          .error (.typeNameNotUnique nm) ∧
        args.filterMap (reflName reflectF) = pre ++ nm :: post ∧
        ((acc.map Prod.fst) ++ pre).Nodup ∧
        nm ∈ (acc.map Prod.fst) ++ pre)) := by
  intro args
  induction args with
  | nil =>
    intro acc _ hacc
    left
    simp [typesForStatementLoop, hacc]
  | cons a rest ih =>
    intro acc h hacc
    obtain ⟨i, hi⟩ := h a (List.mem_cons_self a rest)
    by_cases hdup : (mapFind acc i.name).isSome = true
    · right
      refine ⟨i.name, [], rest.filterMap (reflName reflectF), ?_, ?_, ?_, ?_⟩
      · simp [typesForStatementLoop, hi, hdup]
      · simp [List.filterMap_cons, reflName, hi]
      · simpa using hacc
      · simpa using (mapFind_isSome_iff acc i.name).mp hdup
    · have hfresh : i.name ∉ acc.map Prod.fst := fun hmem =>
        hdup ((mapFind_isSome_iff acc i.name).mpr hmem)
      have hacc' : ((acc ++ [(i.name, i)]).map Prod.fst).Nodup := by
        simp only [List.map_append, List.map_cons, List.map_nil]
        exact List.Nodup.append hacc (List.nodup_singleton i.name)
          (by simpa [List.disjoint_singleton] using hfresh)
      have hstep : typesForStatementLoop reflectF (a :: rest) acc =
          typesForStatementLoop reflectF rest (acc ++ [(i.name, i)]) := by
        simp [typesForStatementLoop, hi, hdup]
      rcases ih (acc ++ [(i.name, i)])
          (fun b hb => h b (List.mem_cons_of_mem a hb)) hacc' with
        ⟨heq, hnodup⟩ | ⟨nm, pre, post, herr, hsplit, hnodup, hmem⟩
      · left
        constructor
        · rw [hstep, heq]
          simp [List.filterMap_cons, entryOf, hi]
        · simpa [List.filterMap_cons, reflName, hi] using hnodup
      · right
        refine ⟨nm, i.name :: pre, post, by rw [hstep, herr], ?_, ?_, ?_⟩
        · simp [List.filterMap_cons, reflName, hi, hsplit]
        · simpa using hnodup
        · simpa using hmem

/-- C2.  Descriptor-table construction: when every supplied value
reflects, `typesForStatement` succeeds exactly when the reflected
names are pairwise distinct; values are processed in the supplied
order and a failure is raised at the first value whose name already
occurs, naming that duplicate (`ErrTypeNameNotUnique`); on success the
table maps each descriptor name to its descriptor. -/
theorem claim2_typesForStatement {α : Type}
    (reflectF : α → Except (List Char) Info) (args : List α)
    (h : ∀ a ∈ args, ∃ i, reflectF a = .ok i) :
    ((∃ t, typesForStatement reflectF args = .ok t) ↔
      (args.filterMap (reflName reflectF)).Nodup) ∧
    (∀ t, typesForStatement reflectF args = .ok t →
      t = args.filterMap (entryOf reflectF) ∧
      t.map Prod.fst = args.filterMap (reflName reflectF) ∧
      ∀ a ∈ args, ∀ i, reflectF a = .ok i → mapFind t i.name = some i) ∧
    (∀ e, typesForStatement reflectF args = .error e →
      ∃ nm pre post, e = .typeNameNotUnique nm ∧
        args.filterMap (reflName reflectF) = pre ++ nm :: post ∧
        pre.Nodup ∧ nm ∈ pre) := by
  have hspec := tfsLoop_spec reflectF args [] h (by simp)
  simp only [List.map_nil, List.nil_append] at hspec
  refine ⟨?_, ?_, ?_⟩
  · constructor
    · intro ⟨t, ht⟩
      rcases hspec with ⟨_, hnodup⟩ | ⟨nm, pre, post, herr, _, _, _⟩
      · exact hnodup
      · rw [typesForStatement] at ht
        rw [ht] at herr
        exact Except.noConfusion herr
    · intro hnodup
      rcases hspec with ⟨heq, _⟩ | ⟨nm, pre, post, _, hsplit, _, hmem⟩
      · exact ⟨_, heq⟩
      · rw [hsplit] at hnodup
        exact absurd hnodup (by
          rw [show pre ++ nm :: post = (pre ++ [nm]) ++ post by simp]
          intro hnd
          have := (List.nodup_append.mp
            ((List.nodup_append.mp hnd).1)).2.2
          exact this hmem (by simp))
  · intro t ht
    rcases hspec with ⟨heq, hnodup⟩ | ⟨nm, pre, post, herr, _, _, _⟩
    · rw [typesForStatement] at ht
      rw [ht] at heq
      obtain rfl : t = args.filterMap (entryOf reflectF) := by
        simpa using Except.ok.injEq .. ▸ heq
      refine ⟨rfl, keys_entries reflectF args, ?_⟩
      intro a ha i hi
      refine mapFind_of_mem_nodup _ ?_ i.name i ?_
      · rw [keys_entries reflectF args]
        exact hnodup
      · exact List.mem_filterMap.mpr ⟨a, ha, by simp [entryOf, hi]⟩
    · rw [typesForStatement] at ht
      rw [ht] at herr
      exact Except.noConfusion herr
  · intro e he
    rcases hspec with ⟨heq, _⟩ | ⟨nm, pre, post, herr, hsplit, hnodup, hmem⟩
    · rw [typesForStatement] at he
      rw [he] at heq
      exact Except.noConfusion heq
    · rw [typesForStatement] at he
      rw [he] at herr
      obtain rfl : e = .typeNameNotUnique nm := by
        simpa using Except.error.injEq .. ▸ herr
      exact ⟨nm, pre, post, rfl, hsplit, hnodup, hmem⟩

/-- Witness for C2 at two distinct concrete descriptors under the
identity reflection function: construction succeeds with the expected
table. -/
theorem claim2_typesForStatement_witness :
    (∀ a ∈ ([⟨['A'], []⟩, ⟨['B'], []⟩] : List Info),
      ∃ i, Except.ok (ε := List Char) a = .ok i) ∧
    ((∃ t, typesForStatement (fun i : Info => Except.ok i)
        [⟨['A'], []⟩, ⟨['B'], []⟩] = .ok t) ↔
      (([⟨['A'], []⟩, ⟨['B'], []⟩] : List Info).filterMap
        (reflName (fun i : Info => Except.ok i))).Nodup) :=
  ⟨fun a _ => ⟨a, rfl⟩,
   (claim2_typesForStatement (fun i : Info => Except.ok i)
     [⟨['A'], []⟩, ⟨['B'], []⟩] (fun a _ => ⟨a, rfl⟩)).1⟩

end Sqlair
